import Mathlib

/-!
Verification of the spherical_sld scattering kernel
(src/sasmodels/models/spherical_sld.c).

The C kernel computes with IEEE-754 doubles.  We embed it as exact real
arithmetic extended with the IEEE special values: the type `FV` below has
finite values carrying exact reals (rounding and overflow are not modelled),
plus the two infinities and a not-a-number value.  The special-value rules
(x/0, 0/0, inf arithmetic, nan absorption) follow IEEE 754, with a zero
divisor treated as +0 — the only zero denominators the source can produce
are `(qr*qr)*(qr*qr)` and divisors of the form `2*erf(..)`, `expm1(..)`,
`dr`, all of which arise as +0 when they are zero.
-/

/-- Exact-real idealization of an IEEE double: a finite value carrying an
exact real, an infinity with a sign (`true` = positive), or not-a-number. -/
inductive FV where
  | fin (x : ℝ) : FV
  | inf (pos : Bool) : FV
  | nan : FV

/-- IEEE negation on `FV`. -/
noncomputable def FV.neg : FV → FV
  | .fin x => .fin (-x)
  | .inf s => .inf (!s)
  | .nan => .nan

/-- IEEE addition on `FV` (exact in the finite case): opposite infinities
give nan, nan absorbs. -/
noncomputable def FV.add : FV → FV → FV
  | .fin a, .fin b => .fin (a + b)
  | .fin _, .inf t => .inf t
  | .inf s, .fin _ => .inf s
  | .inf s, .inf t => if s = t then .inf s else .nan
  | .nan, _ => .nan
  | _, .nan => .nan

/-- IEEE subtraction on `FV`, as addition of the negation (exact, so this
coincides with IEEE subtraction). -/
noncomputable def FV.sub (a b : FV) : FV := FV.add a (FV.neg b)

/-- IEEE multiplication on `FV`: zero times infinity is nan, nan absorbs,
signs of infinities follow the sign rule. -/
noncomputable def FV.mul : FV → FV → FV
  | .fin a, .fin b => .fin (a * b)
  | .fin a, .inf t => if a = 0 then .nan else .inf (t == decide (0 < a))
  | .inf s, .fin b => if b = 0 then .nan else .inf (s == decide (0 < b))
  | .inf s, .inf t => .inf (s == t)
  | .nan, _ => .nan
  | _, .nan => .nan

/-- IEEE division on `FV` with a zero divisor treated as +0 (the convention
matching every zero denominator the source can produce): finite/0 is a
signed infinity, 0/0 is nan, finite/inf is 0, inf/inf is nan, nan absorbs. -/
noncomputable def FV.div : FV → FV → FV
  | .fin a, .fin b =>
      if b = 0 then (if a = 0 then .nan else .inf (decide (0 < a))) else .fin (a / b)
  | .fin _, .inf _ => .fin 0
  | .inf s, .fin b => if b = 0 then .inf s else .inf (s == decide (0 < b))
  | .inf _, .inf _ => .nan
  | .nan, _ => .nan
  | _, .nan => .nan

/-- Truncation of a real toward zero, the semantics of the C cast
`(int)(shape[shell])`. -/
noncomputable def truncToInt (x : ℝ) : ℤ := if 0 ≤ x then ⌊x⌋ else ⌈x⌉

/-- Modelled from the spec: the error-function primitive `sas_erf` lives in a
library file that is not under src; section 6 of the spec lists it as a given
external math primitive.  Standard Gauss-integral definition. -/
noncomputable def sas_erf (x : ℝ) : ℝ :=
  (2 / Real.sqrt Real.pi) * ∫ t in (0:ℝ)..x, Real.exp (-(t ^ 2))

/-- Modelled from the spec: the normalized first-order spherical Bessel
primitive `sph_j1c` lives in a library file that is not under src; section 6
of the spec lists it as a given external math primitive returning a finite
value (3 j1(x)/x, with limit 1 at 0). -/
noncomputable def sph_j1c (x : ℝ) : ℝ :=
  if x = 0 then 1 else 3 * (Real.sin x - x * Real.cos x) / x ^ 3

/-- The libm primitive `expm1`, exact model. -/
noncomputable def expm1 (x : ℝ) : ℝ := Real.exp x - 1

/-- The `cube` helper from the kernel library. -/
noncomputable def cube (x : ℝ) : ℝ := x ^ 3

/-- The constant `M_4PI_3` = 4 pi / 3. -/
noncomputable def M_4PI_3 : ℝ := 4 * Real.pi / 3

/-- The constant `M_SQRT1_2` = 1 / sqrt 2. -/
noncomputable def M_SQRT1_2 : ℝ := 1 / Real.sqrt 2

/-- The libm primitive `pow` on a real base and exponent, with the IEEE
special cases the kernel can reach: positive base gives the real power,
`pow(+0, y)` is 0 for y > 0, 1 for y = 0 and +inf for y < 0, and a negative
base gives the integer power when the exponent is an integer and nan
otherwise. -/
noncomputable def powFV (x y : ℝ) : FV :=
  if 0 < x then .fin (Real.rpow x y)
  else if x = 0 then (if 0 < y then .fin 0 else if y = 0 then .fin 1 else .inf true)
  else if (⌊y⌋ : ℝ) = y then .fin (x ^ ⌊y⌋) else .nan

/-- The function `blend` from spherical_sld.c: maps a shape code, sharpness
nu and normalized position z to the fractional SLD blend; an unrecognized
shape code returns NAN. -/
noncomputable def blend (shape : ℤ) (nu z : ℝ) : FV :=
  if shape = 0 then
    FV.add (FV.div (.fin (sas_erf (nu * M_SQRT1_2 * (2 * z - 1))))
                   (.fin (2 * sas_erf (nu * M_SQRT1_2)))) (.fin 0.5)
  else if shape = 1 then powFV z nu
  else if shape = 2 then FV.sub (.fin 1) (powFV (1 - z) nu)
  else if shape = 3 then FV.div (.fin (expm1 (-nu * z))) (.fin (expm1 (-nu)))
  else if shape = 4 then FV.div (.fin (expm1 (nu * z))) (.fin (expm1 nu))
  else .nan

/-- The function `f_linear` from spherical_sld.c: amplitude boundary term at
radius r for a linear SLD segment; the slope-weighted part divides by
`(qr)^4`, which follows the IEEE rules of `FV.div` when qr = 0. -/
noncomputable def f_linear (q r : ℝ) (contrast slope : FV) : FV :=
  let qr := q * r
  let qrsq := qr * qr
  let bes := sph_j1c qr
  let sinqr := Real.sin qr
  let cosqr := Real.cos qr
  let fn := FV.div (.fin (3 * r * (2 * qr * sinqr - (qrsq - 2) * cosqr)))
                   (.fin (qrsq * qrsq))
  let vol := M_4PI_3 * cube r
  FV.mul (.fin vol) (FV.add (FV.mul (.fin bes) contrast) (FV.mul fn slope))

/-- The body of the inner loop of `Iq` (`for step=1..n_steps`), one linear
sub-shell of an interface; the fold index k runs from 0 so step = k+1.
State: (accumulated amplitude f, running radius r, sld_in). -/
noncomputable def interfaceStep (q sld_l delta dr : ℝ) (shape_shell : ℤ)
    (nu_shell : ℝ) (n_steps : ℕ) (st : FV × ℝ × FV) (k : ℕ) : FV × ℝ × FV :=
  let f := st.1
  let r := st.2.1
  let sld_in := st.2.2
  let z := ((k + 1 : ℕ) : ℝ) / (n_steps : ℝ)
  let fraction := blend shape_shell nu_shell z
  let sld_out := FV.add (FV.mul fraction (.fin delta)) (.fin sld_l)
  let slope := FV.div (FV.sub sld_out sld_in) (.fin dr)
  let contrast := FV.sub sld_in (FV.mul slope (.fin r))
  let f1 := FV.sub f (f_linear q r contrast slope)
  let r1 := r + dr
  let f2 := FV.add f1 (f_linear q r1 contrast slope)
  (f2, r1, sld_out)

/-- The body of the outer loop of `Iq` (`for shell=0..n_shells-1`): the
uniform part of the shell, then, when dr is nonzero, the sub-stepped
interface.  State: (accumulated amplitude f, running radius r). -/
noncomputable def shellStep (q sld_solvent : ℝ) (n_shells : ℕ)
    (sld thickness interface shape nu : ℕ → ℝ) (n_steps : ℕ)
    (st : FV × ℝ) (shell : ℕ) : FV × ℝ :=
  let sld_l := sld shell
  let f0 := FV.sub st.1 (.fin (M_4PI_3 * cube st.2 * sld_l * sph_j1c (q * st.2)))
  let r0 := st.2 + thickness shell
  let f1 := FV.add f0 (.fin (M_4PI_3 * cube r0 * sld_l * sph_j1c (q * r0)))
  let dr := interface shell / (n_steps : ℝ)
  let delta := (if shell = n_shells - 1 then sld_solvent else sld (shell + 1)) - sld_l
  let nu_shell := max |nu shell| 1e-14
  let shape_shell := truncToInt (shape shell)
  if dr = 0 then (f1, r0)
  else
    let t := (List.range n_steps).foldl
      (interfaceStep q sld_l delta dr shape_shell nu_shell n_steps)
      (f1, r0, .fin sld_l)
    (t.1, t.2.1)

/-- The amplitude accumulated by `Iq` just before squaring: the shell loop
followed by the closing solvent term. -/
noncomputable def Iq_f (q : ℝ) (n_shells : ℕ) (sld_solvent : ℝ)
    (sld thickness interface shape nu : ℕ → ℝ) (n_steps : ℕ) : FV :=
  let t := (List.range n_shells).foldl
    (shellStep q sld_solvent n_shells sld thickness interface shape nu n_steps)
    (.fin 0, 0)
  FV.sub t.1 (.fin (M_4PI_3 * cube t.2 * sld_solvent * sph_j1c (q * t.2)))

/-- The function `Iq` from spherical_sld.c: accumulated amplitude squared
times 1e-4. -/
noncomputable def Iq (q : ℝ) (n_shells : ℕ) (sld_solvent : ℝ)
    (sld thickness interface shape nu : ℕ → ℝ) (n_steps : ℕ) : FV :=
  let f := Iq_f q n_shells sld_solvent sld thickness interface shape nu n_steps
  FV.mul (FV.mul f f) (.fin 1e-4)

/-- The function `form_volume` from spherical_sld.c: total volume from the
summed thicknesses and interface widths. -/
noncomputable def form_volume (n_shells : ℕ) (thickness interface : ℕ → ℝ) : ℝ :=
  M_4PI_3 * cube ((List.range n_shells).foldl
    (fun r i => r + (thickness i + interface i)) 0)

/-! FV algebra helper lemmas. -/

@[simp] theorem FV.neg_fin (x : ℝ) : FV.neg (.fin x) = .fin (-x) := rfl

@[simp] theorem FV.add_fin (a b : ℝ) : FV.add (.fin a) (.fin b) = .fin (a + b) := rfl

@[simp] theorem FV.sub_fin (a b : ℝ) : FV.sub (.fin a) (.fin b) = .fin (a - b) := by
  simp [FV.sub, sub_eq_add_neg]

@[simp] theorem FV.mul_fin (a b : ℝ) : FV.mul (.fin a) (.fin b) = .fin (a * b) := rfl

theorem FV.div_fin {b : ℝ} (a : ℝ) (hb : b ≠ 0) :
    FV.div (.fin a) (.fin b) = .fin (a / b) := by
  simp [FV.div, hb]

@[simp] theorem FV.nan_add (x : FV) : FV.add .nan x = .nan := by cases x <;> rfl

@[simp] theorem FV.add_nan (x : FV) : FV.add x .nan = .nan := by cases x <;> rfl

@[simp] theorem FV.neg_nan : FV.neg .nan = .nan := rfl

@[simp] theorem FV.nan_sub (x : FV) : FV.sub .nan x = .nan := by cases x <;> rfl

@[simp] theorem FV.sub_nan (x : FV) : FV.sub x .nan = .nan := by cases x <;> rfl

@[simp] theorem FV.nan_mul (x : FV) : FV.mul .nan x = .nan := by cases x <;> rfl

@[simp] theorem FV.mul_nan (x : FV) : FV.mul x .nan = .nan := by cases x <;> rfl

@[simp] theorem FV.nan_div (x : FV) : FV.div .nan x = .nan := by cases x <;> rfl

@[simp] theorem FV.div_nan (x : FV) : FV.div x .nan = .nan := by cases x <;> rfl

/-! Spec-side definitions, written from the wording of the specification
(sections 4.2 to 4.4) and used as the reference side of the refinement
claim about `Iq`.  They compute in plain real arithmetic. -/

/-- Modelled from the spec, section 4.2: the five blend variants as a
real-valued map (the unrecognized-code case is irrelevant here and maps
to 0; the refinement theorem assumes a recognized code). -/
noncomputable def blendSpec (shape : ℤ) (nu z : ℝ) : ℝ :=
  if shape = 0 then
    sas_erf (nu * (2 * z - 1) / Real.sqrt 2) / (2 * sas_erf (nu / Real.sqrt 2)) + 0.5
  else if shape = 1 then Real.rpow z nu
  else if shape = 2 then 1 - Real.rpow (1 - z) nu
  else if shape = 3 then expm1 (-nu * z) / expm1 (-nu)
  else if shape = 4 then expm1 (nu * z) / expm1 nu
  else 0

/-- Modelled from the spec, section 4.4 step 1a and step 2: the uniform
boundary term (4/3) pi r^3 sld sph_j1c(qr). -/
noncomputable def uniformTermSpec (q r sldv : ℝ) : ℝ :=
  4 / 3 * Real.pi * r ^ 3 * sldv * sph_j1c (q * r)

/-- Modelled from the spec, section 4.3: the segment amplitude at radius r,
the Bessel term weighted by contrast plus the polynomial-in-qr correction
weighted by slope, in real arithmetic (valid for qr nonzero). -/
noncomputable def segmentTransformSpec (q r contrast slope : ℝ) : ℝ :=
  4 / 3 * Real.pi * r ^ 3 *
    (sph_j1c (q * r) * contrast +
      3 * r * (2 * (q * r) * Real.sin (q * r) - (q * r * (q * r) - 2) * Real.cos (q * r)) /
        (q * r * (q * r) * (q * r * (q * r))) * slope)

/-- Modelled from the spec, section 4.4 step 1c: one sub-step of an
interface, in real arithmetic; the step index is k+1 and z = (k+1)/N. -/
noncomputable def interfaceStepSpec (q sld_l delta dr : ℝ) (shape_shell : ℤ)
    (nu_shell : ℝ) (n_steps : ℕ) (st : ℝ × ℝ × ℝ) (k : ℕ) : ℝ × ℝ × ℝ :=
  let f := st.1
  let r := st.2.1
  let sld_in := st.2.2
  let z := ((k + 1 : ℕ) : ℝ) / (n_steps : ℝ)
  let sld_out := blendSpec shape_shell nu_shell z * delta + sld_l
  let slope := (sld_out - sld_in) / dr
  let contrast := sld_in - slope * r
  (f - segmentTransformSpec q r contrast slope
     + segmentTransformSpec q (r + dr) contrast slope, r + dr, sld_out)

/-- Modelled from the spec, section 4.4 step 1: one shell of the telescoped
amplitude sum, in real arithmetic; sub-stepping is skipped exactly when the
interface width is zero. -/
noncomputable def shellStepSpec (q sld_solvent : ℝ) (n_shells : ℕ)
    (sld thickness interface shape nu : ℕ → ℝ) (n_steps : ℕ)
    (st : ℝ × ℝ) (shell : ℕ) : ℝ × ℝ :=
  let sld_l := sld shell
  let f0 := st.1 - uniformTermSpec q st.2 sld_l
  let r0 := st.2 + thickness shell
  let f1 := f0 + uniformTermSpec q r0 sld_l
  if interface shell = 0 then (f1, r0)
  else
    let dr := interface shell / (n_steps : ℝ)
    let delta := (if shell = n_shells - 1 then sld_solvent else sld (shell + 1)) - sld_l
    let t := (List.range n_steps).foldl
      (interfaceStepSpec q sld_l delta dr (truncToInt (shape shell))
        (max |nu shell| 1e-14) n_steps)
      (f1, r0, sld_l)
    (t.1, t.2.1)

/-- Modelled from the spec, section 4.4: the full telescoped amplitude sum,
shells then the closing solvent term, in real arithmetic. -/
noncomputable def ampSpec (q : ℝ) (n_shells : ℕ) (sld_solvent : ℝ)
    (sld thickness interface shape nu : ℕ → ℝ) (n_steps : ℕ) : ℝ :=
  let t := (List.range n_shells).foldl
    (shellStepSpec q sld_solvent n_shells sld thickness interface shape nu n_steps)
    (0, 0)
  t.1 - uniformTermSpec q t.2 sld_solvent

/-! Helper lemmas for the volume fold. -/

theorem foldl_add_eq_sum (g : ℕ → ℝ) : ∀ (n : ℕ) (a : ℝ),
    (List.range n).foldl (fun r i => r + g i) a = a + ∑ i in Finset.range n, g i := by
  intro n
  induction n with
  | zero => intro a; simp
  | succ m ih =>
      intro a
      rw [List.range_succ, List.foldl_append, ih, Finset.sum_range_succ]
      simp [add_assoc]

/-- C7: for every shell profile, form_volume returns (4/3) pi r^3 where r is
the sum over all shells of thickness[i] + interface[i]; in particular it
returns 0 for an empty shell sequence. -/
theorem form_volume_eq (n_shells : ℕ) (thickness interface : ℕ → ℝ) :
    form_volume n_shells thickness interface
      = 4 / 3 * Real.pi * (∑ i in Finset.range n_shells, (thickness i + interface i)) ^ 3
    ∧ form_volume 0 thickness interface = 0 := by
  constructor
  · rw [form_volume, foldl_add_eq_sum, zero_add, cube, M_4PI_3]; ring
  · rw [form_volume]; simp [cube, M_4PI_3]

/-- C5 counterexample: at q = 0, r = 1 (so qr = 0) and slope 0, f_linear does
not return the uniform-sphere term: the slope correction divides zero by
zero, giving an infinity that is multiplied by the zero slope, hence nan. -/
theorem f_linear_qr_zero_cex :
    (0:ℝ) ≤ 0 ∧ (0:ℝ) ≤ 1 ∧ f_linear 0 1 (.fin 1) (.fin 0) = FV.nan ∧
    f_linear 0 1 (.fin 1) (.fin 0) ≠ .fin (1 * (4 / 3 * Real.pi * 1 ^ 3) * sph_j1c (0 * 1)) := by
  have h : f_linear 0 1 (.fin 1) (.fin 0) = FV.nan := by
    simp [f_linear, FV.div, FV.mul, FV.add, Real.sin_zero, Real.cos_zero]
  refine ⟨le_refl 0, by norm_num, h, ?_⟩
  rw [h]
  intro hc
  exact FV.noConfusion hc

/-- C5 amended: for every q, r with qr nonzero (0 <= q, 0 <= r as claimed),
f_linear with slope 0 equals the classic uniform-sphere amplitude term
contrast times (4/3) pi r^3 times sph_j1c(qr). -/
theorem f_linear_zero_slope_uniform (q r c : ℝ) (hq : 0 ≤ q) (hr : 0 ≤ r)
    (h : q * r ≠ 0) :
    f_linear q r (.fin c) (.fin 0)
      = .fin (c * (4 / 3 * Real.pi * r ^ 3) * sph_j1c (q * r)) := by
  have h4 : q * r * (q * r) * (q * r * (q * r)) ≠ 0 :=
    mul_ne_zero (mul_ne_zero h h) (mul_ne_zero h h)
  simp only [f_linear, FV.div_fin _ h4, FV.mul_fin, FV.add_fin]
  rw [M_4PI_3, cube]
  congr 1
  ring

/-- C5 amended witness at q = 1, r = 2, contrast 5. -/
theorem f_linear_zero_slope_uniform_witness :
    (0:ℝ) ≤ 1 ∧ (0:ℝ) ≤ 2 ∧ ((1:ℝ) * 2) ≠ 0 ∧
    f_linear 1 2 (.fin 5) (.fin 0)
      = .fin (5 * (4 / 3 * Real.pi * 2 ^ 3) * sph_j1c (1 * 2)) :=
  ⟨by norm_num, by norm_num, by norm_num,
    f_linear_zero_slope_uniform 1 2 5 (by norm_num) (by norm_num) (by norm_num)⟩

/-- C6 counterexample: sharpness nu = -1 has magnitude at least the clamp
floor 1e-14, yet the power-law shape at z = 0 is pow(0, -1) = +inf, not 0
(the C library pow of a zero base and negative exponent is +inf). -/
theorem blend_boundary_cex :
    (1e-14 : ℝ) ≤ |(-1 : ℝ)| ∧ blend 1 (-1) 0 ≠ .fin 0 := by
  refine ⟨by norm_num, ?_⟩
  have h : blend 1 (-1) 0 = FV.inf true := by
    norm_num [blend, powFV]
  rw [h]
  intro hc
  exact FV.noConfusion hc

/-- C6 amended: for the four non-erf shapes and every sharpness nu at least
the (positive) clamp floor 1e-14 — which is what the clamped kernel passes —
blend is 0 at z = 0 and 1 at z = 1. -/
theorem blend_boundary_contract (shape : ℤ) (nu : ℝ)
    (hs : shape = 1 ∨ shape = 2 ∨ shape = 3 ∨ shape = 4) (hnu : 1e-14 ≤ nu) :
    blend shape nu 0 = .fin 0 ∧ blend shape nu 1 = .fin 1 := by
  have hpos : 0 < nu := lt_of_lt_of_le (by norm_num) hnu
  have hne : nu ≠ 0 := ne_of_gt hpos
  have hexp : expm1 (-nu) ≠ 0 := by
    rw [expm1, sub_ne_zero]
    intro hc
    exact (neg_ne_zero.mpr hne) ((Real.exp_eq_one_iff _).mp hc)
  have hexp2 : expm1 nu ≠ 0 := by
    rw [expm1, sub_ne_zero]
    intro hc
    exact hne ((Real.exp_eq_one_iff _).mp hc)
  have e0 : ∀ y : ℝ, expm1 (y * 0) = 0 := fun y => by simp [expm1]
  rcases hs with h | h | h | h <;> subst h
  · constructor
    · norm_num [blend, powFV, hpos]
    · norm_num [blend, powFV, Real.one_rpow]
  · constructor
    · norm_num [blend, powFV, Real.one_rpow]
    · norm_num [blend, powFV, hpos]
  · constructor
    · have hb : blend 3 nu 0 = FV.div (.fin (expm1 (-nu * 0))) (.fin (expm1 (-nu))) := by
        simp only [blend]; norm_num
      rw [hb, e0 (-nu), FV.div_fin _ hexp, zero_div]
    · have hb : blend 3 nu 1 = FV.div (.fin (expm1 (-nu * 1))) (.fin (expm1 (-nu))) := by
        simp only [blend]; norm_num
      rw [hb, mul_one, FV.div_fin _ hexp, div_self hexp]
  · constructor
    · have hb : blend 4 nu 0 = FV.div (.fin (expm1 (nu * 0))) (.fin (expm1 nu)) := by
        simp only [blend]; norm_num
      rw [hb, e0 nu, FV.div_fin _ hexp2, zero_div]
    · have hb : blend 4 nu 1 = FV.div (.fin (expm1 (nu * 1))) (.fin (expm1 nu)) := by
        simp only [blend]; norm_num
      rw [hb, mul_one, FV.div_fin _ hexp2, div_self hexp2]

/-- C6 amended witness at shape 3 (exponential decay), nu = 2. -/
theorem blend_boundary_contract_witness :
    ((3:ℤ) = 1 ∨ (3:ℤ) = 2 ∨ (3:ℤ) = 3 ∨ (3:ℤ) = 4) ∧ (1e-14 : ℝ) ≤ 2 ∧
    blend 3 2 0 = .fin 0 ∧ blend 3 2 1 = .fin 1 :=
  ⟨by norm_num, by norm_num,
    blend_boundary_contract 3 2 (by norm_num) (by norm_num)⟩

/-- C2: for the single-shell, no-interface input (n_shells 1, sld 1,
thickness 10, interfaceWidth 0, solvent 0, q 0.05, any n_steps at least 1
and any blend shape and sharpness) the amplitude accumulated by Iq is the
uniform-sphere amplitude at radius 10 with contrast 1, and the intensity is
that amplitude squared times 1e-4. -/
theorem Iq_single_shell_uniform (shape nu : ℕ → ℝ) (n_steps : ℕ)
    (hN : 1 ≤ n_steps) :
    Iq_f 0.05 1 0 (fun _ => 1) (fun _ => 10) (fun _ => 0) shape nu n_steps
      = .fin (4 / 3 * Real.pi * 10 ^ 3 * sph_j1c (0.05 * 10)) ∧
    Iq 0.05 1 0 (fun _ => 1) (fun _ => 10) (fun _ => 0) shape nu n_steps
      = .fin ((4 / 3 * Real.pi * 10 ^ 3 * sph_j1c (0.05 * 10)) ^ 2 * 1e-4) := by
  have hamp : Iq_f 0.05 1 0 (fun _ => 1) (fun _ => 10) (fun _ => 0) shape nu n_steps
      = .fin (4 / 3 * Real.pi * 10 ^ 3 * sph_j1c (0.05 * 10)) := by
    simp only [Iq_f, List.range_succ, List.range_zero, List.nil_append,
      List.foldl_cons, List.foldl_nil, shellStep]
    norm_num [cube, M_4PI_3, zero_div, FV.sub_fin, FV.add_fin]
    left
    ring
  refine ⟨hamp, ?_⟩
  rw [Iq]
  simp only [hamp, FV.mul_fin]
  congr 1
  ring

/-- C2 witness at n_steps = 5, erf shape, sharpness 3. -/
theorem Iq_single_shell_uniform_witness :
    1 ≤ 5 ∧
    Iq_f 0.05 1 0 (fun _ => 1) (fun _ => 10) (fun _ => 0)
        (fun _ => 0) (fun _ => 3) 5
      = .fin (4 / 3 * Real.pi * 10 ^ 3 * sph_j1c (0.05 * 10)) :=
  ⟨by norm_num,
    (Iq_single_shell_uniform (fun _ => 0) (fun _ => 3) 5 (by norm_num)).1⟩

/-! Generic fold-invariant helpers. -/

theorem foldl_preserves {α β : Type _} (P : β → Prop) (f : β → α → β) :
    ∀ (l : List α) (b : β), P b → (∀ st a, P st → P (f st a)) → P (l.foldl f b) := by
  intro l
  induction l with
  | nil => intro b hb _; exact hb
  | cons x xs ih => intro b hb hstep; exact ih _ (hstep _ _ hb) hstep

theorem foldl_congr_on {α β : Type _} (f g : β → α → β) :
    ∀ (l : List α) (b : β), (∀ x ∈ l, ∀ st, f st x = g st x) → l.foldl f b = l.foldl g b := by
  intro l
  induction l with
  | nil => intro b _; rfl
  | cons x xs ih =>
      intro b h
      rw [List.foldl_cons, List.foldl_cons, h x (List.mem_cons_self x xs)]
      exact ih _ (fun y hy st => h y (List.mem_cons_of_mem x hy) st)

theorem foldl_eventually {α β : Type _} (P : β → Prop) (f : β → α → β) (s : α) :
    ∀ (l : List α) (b : β), s ∈ l → (∀ st, P (f st s)) →
      (∀ st a, P st → P (f st a)) → P (l.foldl f b) := by
  intro l
  induction l with
  | nil => intro b h _ _; simp at h
  | cons x xs ih =>
      intro b hmem hset hkeep
      rcases List.mem_cons.mp hmem with hx | hx
      · subst hx
        exact foldl_preserves P f xs (f b s) (hset b) hkeep
      · exact ih _ hx hset hkeep

/-! Nan propagation through the kernel. -/

theorem f_linear_nan_slope (q r : ℝ) (c : FV) : f_linear q r c .nan = .nan := by
  simp [f_linear]

theorem interfaceStep_nan (q sld_l delta dr : ℝ) (shape_shell : ℤ) (nu_shell : ℝ)
    (n_steps : ℕ) (st : FV × ℝ × FV) (k : ℕ) (h : st.1 = .nan) :
    (interfaceStep q sld_l delta dr shape_shell nu_shell n_steps st k).1 = .nan := by
  simp [interfaceStep, h]

theorem interfaceFold_nan (q sld_l delta dr : ℝ) (sh : ℤ) (nus : ℝ) (N : ℕ)
    (l : List ℕ) (r0 : ℝ) (s0 : FV) :
    (l.foldl (interfaceStep q sld_l delta dr sh nus N) (.nan, r0, s0)).1 = .nan :=
  foldl_preserves (fun t => t.1 = FV.nan) _ l (.nan, r0, s0) rfl
    (fun t a ht => interfaceStep_nan q sld_l delta dr sh nus N t a ht)

theorem shellStep_nan (q sld_solvent : ℝ) (n_shells : ℕ)
    (sld thickness interface shape nu : ℕ → ℝ) (n_steps : ℕ)
    (st : FV × ℝ) (shell : ℕ) (h : st.1 = .nan) :
    (shellStep q sld_solvent n_shells sld thickness interface shape nu n_steps st shell).1
      = .nan := by
  rw [shellStep]
  simp only [h, FV.nan_sub, FV.nan_add]
  by_cases hdr : interface shell / (n_steps : ℝ) = 0
  · rw [if_pos hdr]
  · rw [if_neg hdr]
    dsimp only
    exact interfaceFold_nan _ _ _ _ _ _ _ _ _ _

theorem blend_invalid (shape : ℤ) (nu z : ℝ) (h0 : shape ≠ 0) (h1 : shape ≠ 1)
    (h2 : shape ≠ 2) (h3 : shape ≠ 3) (h4 : shape ≠ 4) :
    blend shape nu z = .nan := by
  simp [blend, h0, h1, h2, h3, h4]

theorem interfaceStep_invalid (q sld_l delta dr : ℝ) (sh : ℤ) (nus : ℝ) (N : ℕ)
    (h0 : sh ≠ 0) (h1 : sh ≠ 1) (h2 : sh ≠ 2) (h3 : sh ≠ 3) (h4 : sh ≠ 4)
    (st : FV × ℝ × FV) (k : ℕ) :
    (interfaceStep q sld_l delta dr sh nus N st k).1 = .nan := by
  rw [interfaceStep]
  simp only [blend_invalid _ nus _ h0 h1 h2 h3 h4, FV.nan_mul, FV.nan_add, FV.nan_sub,
    FV.nan_div, FV.sub_nan, f_linear_nan_slope]

theorem interfaceFold_invalid (q sld_l delta dr : ℝ) (sh : ℤ) (nus : ℝ) (m : ℕ)
    (h0 : sh ≠ 0) (h1 : sh ≠ 1) (h2 : sh ≠ 2) (h3 : sh ≠ 3) (h4 : sh ≠ 4)
    (st : FV × ℝ × FV) :
    ((List.range (m + 1)).foldl (interfaceStep q sld_l delta dr sh nus (m + 1)) st).1
      = .nan := by
  rw [List.range_succ_eq_map, List.foldl_cons]
  exact foldl_preserves (fun t => t.1 = FV.nan) _ _ _
    (interfaceStep_invalid q sld_l delta dr sh nus (m + 1) h0 h1 h2 h3 h4 st 0)
    (fun t a ht => interfaceStep_nan q sld_l delta dr sh nus (m + 1) t a ht)

theorem shellStep_invalid_shape (q sld_solvent : ℝ) (n_shells : ℕ)
    (sld thickness interface shape nu : ℕ → ℝ) (n_steps : ℕ) (s : ℕ)
    (hshape : truncToInt (shape s) ∉ ({0, 1, 2, 3, 4} : Finset ℤ))
    (hitf : interface s ≠ 0) (hN : 1 ≤ n_steps) (st : FV × ℝ) :
    (shellStep q sld_solvent n_shells sld thickness interface shape nu n_steps st s).1
      = .nan := by
  simp only [Finset.mem_insert, Finset.mem_singleton, not_or] at hshape
  obtain ⟨h0, h1, h2, h3, h4⟩ := hshape
  have hNr : (n_steps : ℝ) ≠ 0 := Nat.cast_ne_zero.mpr (Nat.one_le_iff_ne_zero.mp hN)
  have hdr : interface s / (n_steps : ℝ) ≠ 0 := div_ne_zero hitf hNr
  obtain ⟨m, hm⟩ : ∃ m, n_steps = m + 1 := ⟨n_steps - 1, (Nat.succ_pred_eq_of_pos hN).symm⟩
  subst hm
  rw [shellStep]
  dsimp only
  rw [if_neg hdr]
  exact interfaceFold_invalid _ _ _ _ _ _ m h0 h1 h2 h3 h4 _

/-- C3: whenever some shell carries a blend-shape code outside 0..4 after
integer truncation and has a nonzero interface width (with at least one
sub-step), blend returns nan on that shell and the nan propagates through
the arithmetic of the remaining accumulation, so Iq returns nan. -/
theorem Iq_invalid_shape_nan (q : ℝ) (n_shells : ℕ) (sld_solvent : ℝ)
    (sld thickness interface shape nu : ℕ → ℝ) (n_steps : ℕ) (s : ℕ)
    (hs : s < n_shells)
    (hshape : truncToInt (shape s) ∉ ({0, 1, 2, 3, 4} : Finset ℤ))
    (hitf : interface s ≠ 0) (hN : 1 ≤ n_steps) :
    (∀ nuv z : ℝ, blend (truncToInt (shape s)) nuv z = .nan) ∧
    Iq q n_shells sld_solvent sld thickness interface shape nu n_steps = .nan := by
  have hshape2 := hshape
  simp only [Finset.mem_insert, Finset.mem_singleton, not_or] at hshape2
  obtain ⟨h0, h1, h2, h3, h4⟩ := hshape2
  constructor
  · exact fun nuv z => blend_invalid _ nuv z h0 h1 h2 h3 h4
  · have hf : Iq_f q n_shells sld_solvent sld thickness interface shape nu n_steps
        = .nan := by
      rw [Iq_f]
      rw [show ((List.range n_shells).foldl
          (shellStep q sld_solvent n_shells sld thickness interface shape nu n_steps)
          (.fin 0, 0)).1 = FV.nan from
        foldl_eventually (fun t => t.1 = FV.nan) _ s _ _ (List.mem_range.mpr hs)
          (fun st => shellStep_invalid_shape q sld_solvent n_shells sld thickness
            interface shape nu n_steps s hshape hitf hN st)
          (fun st a ht => shellStep_nan q sld_solvent n_shells sld thickness
            interface shape nu n_steps st a ht), FV.nan_sub]
    rw [Iq]
    rw [hf, FV.nan_mul, FV.nan_mul]

/-- C3 witness: one shell with shape code 7, interface width 1, one step. -/
theorem Iq_invalid_shape_nan_witness :
    0 < 1 ∧ truncToInt ((fun _ : ℕ => (7:ℝ)) 0) ∉ ({0, 1, 2, 3, 4} : Finset ℤ) ∧
    ((fun _ : ℕ => (1:ℝ)) 0) ≠ 0 ∧ 1 ≤ 1 ∧
    Iq 1 1 0 (fun _ => 1) (fun _ => 1) (fun _ => 1) (fun _ => 7) (fun _ => 1) 1
      = .nan := by
  have ht : truncToInt ((fun _ : ℕ => (7:ℝ)) 0) = 7 := by
    norm_num [truncToInt]
  refine ⟨by norm_num, ?_, by norm_num, by norm_num, ?_⟩
  · rw [ht]; decide
  · exact (Iq_invalid_shape_nan 1 1 0 (fun _ => 1) (fun _ => 1) (fun _ => 1)
      (fun _ => 7) (fun _ => 1) 1 0 (by norm_num)
      (by rw [ht]; decide) (by norm_num) (by norm_num)).2

/-! Congruence helpers for Iq. -/

theorem shellStep_congr_nu (q sld_solvent : ℝ) (n_shells : ℕ)
    (sld thickness interface shape : ℕ → ℝ) (nu1 nu2 : ℕ → ℝ) (n_steps : ℕ)
    (shell : ℕ) (h : max |nu1 shell| 1e-14 = max |nu2 shell| 1e-14) (st : FV × ℝ) :
    shellStep q sld_solvent n_shells sld thickness interface shape nu1 n_steps st shell
      = shellStep q sld_solvent n_shells sld thickness interface shape nu2 n_steps st shell := by
  simp only [shellStep, h]

theorem shellStep_congr_shape (q sld_solvent : ℝ) (n_shells : ℕ)
    (sld thickness interface : ℕ → ℝ) (shp1 shp2 nu : ℕ → ℝ) (n_steps : ℕ)
    (shell : ℕ) (h : shp1 shell = shp2 shell) (st : FV × ℝ) :
    shellStep q sld_solvent n_shells sld thickness interface shp1 nu n_steps st shell
      = shellStep q sld_solvent n_shells sld thickness interface shp2 nu n_steps st shell := by
  simp only [shellStep, h]

theorem shellStep_zero_itf (q sld_solvent : ℝ) (n_shells : ℕ)
    (sld thickness interface : ℕ → ℝ) (shp1 shp2 nu : ℕ → ℝ) (n_steps : ℕ)
    (shell : ℕ) (h : interface shell = 0) (st : FV × ℝ) :
    shellStep q sld_solvent n_shells sld thickness interface shp1 nu n_steps st shell
      = shellStep q sld_solvent n_shells sld thickness interface shp2 nu n_steps st shell := by
  have hdr : interface shell / (n_steps : ℝ) = 0 := by rw [h, zero_div]
  rw [shellStep, shellStep, if_pos hdr, if_pos hdr]

/-- C9: the intensity is invariant under negating the sharpness of any one
shell, because the kernel only ever uses fmax(fabs(nu), 1e-14). -/
theorem Iq_neg_sharpness_invariant (q : ℝ) (n_shells : ℕ) (sld_solvent : ℝ)
    (sld thickness interface shape nu : ℕ → ℝ) (n_steps : ℕ) (i : ℕ) :
    Iq q n_shells sld_solvent sld thickness interface shape
        (Function.update nu i (-(nu i))) n_steps
      = Iq q n_shells sld_solvent sld thickness interface shape nu n_steps := by
  have hmax : ∀ shell, max |Function.update nu i (-(nu i)) shell| 1e-14
      = max |nu shell| 1e-14 := by
    intro shell
    rcases eq_or_ne shell i with hsh | hsh
    · subst hsh; rw [Function.update_same, abs_neg]
    · rw [Function.update_noteq hsh]
  have hfold : ∀ b : FV × ℝ,
      (List.range n_shells).foldl (shellStep q sld_solvent n_shells sld thickness
        interface shape (Function.update nu i (-(nu i))) n_steps) b
      = (List.range n_shells).foldl (shellStep q sld_solvent n_shells sld thickness
        interface shape nu n_steps) b := by
    intro b
    exact foldl_congr_on _ _ _ b (fun x _ st =>
      shellStep_congr_nu q sld_solvent n_shells sld thickness interface shape
        _ _ n_steps x (hmax x) st)
  rw [Iq, Iq, Iq_f, Iq_f]
  rw [hfold]

set_option maxHeartbeats 1000000 in
/-- C10: on a shell whose interface width is zero, the blend-shape code is
never consulted: replacing it by anything (valid or not) leaves the
intensity unchanged, and only the uniform term of that shell is
accumulated. -/
theorem Iq_zero_interface_shape_irrelevant (q : ℝ) (n_shells : ℕ) (sld_solvent : ℝ)
    (sld thickness interface shape nu : ℕ → ℝ) (n_steps : ℕ) (s : ℕ) (c : ℝ)
    (h : interface s = 0) :
    Iq q n_shells sld_solvent sld thickness interface
        (Function.update shape s c) nu n_steps
      = Iq q n_shells sld_solvent sld thickness interface shape nu n_steps := by
  have hstep : ∀ x ∈ List.range n_shells, ∀ st : FV × ℝ,
      shellStep q sld_solvent n_shells sld thickness interface
        (Function.update shape s c) nu n_steps st x
      = shellStep q sld_solvent n_shells sld thickness interface shape nu n_steps st x := by
    intro x _ st
    rcases eq_or_ne x s with hx | hx
    · subst hx
      exact shellStep_zero_itf q sld_solvent n_shells sld thickness interface
        (Function.update shape x c) shape nu n_steps x h st
    · exact shellStep_congr_shape q sld_solvent n_shells sld thickness interface
        (Function.update shape s c) shape nu n_steps x
        (Function.update_noteq hx c shape) st
  have hfold := foldl_congr_on _ _ (List.range n_shells) ((.fin 0, 0) : FV × ℝ) hstep
  rw [Iq, Iq, Iq_f, Iq_f, hfold]

/-- C10 witness: one shell, zero interface width, shape code replaced by 9. -/
theorem Iq_zero_interface_shape_irrelevant_witness :
    ((fun _ : ℕ => (0:ℝ)) 0) = 0 ∧
    Iq 1 1 0 (fun _ => 1) (fun _ => 1) (fun _ => 0)
        (Function.update (fun _ => (0:ℝ)) 0 9) (fun _ => 1) 3
      = Iq 1 1 0 (fun _ => 1) (fun _ => 1) (fun _ => 0) (fun _ => 0) (fun _ => 1) 3 :=
  ⟨rfl, Iq_zero_interface_shape_irrelevant 1 1 0 (fun _ => 1) (fun _ => 1)
    (fun _ => 0) (fun _ => 0) (fun _ => 1) 3 0 9 rfl⟩

/-! Infrastructure for the q = 0 safety claim: the accumulator is always a
finite value or nan (never an infinity) when the inputs satisfy the spec
invariants. -/

/-- A float value that is finite or nan (not an infinity). -/
def FV.finOrNan : FV → Prop
  | .fin _ => True
  | .inf _ => False
  | .nan => True

theorem FV.finOrNan_fin (x : ℝ) : (FV.fin x).finOrNan := trivial

theorem FV.finOrNan_nan : FV.nan.finOrNan := trivial

theorem FV.finOrNan_cases {v : FV} (h : v.finOrNan) :
    (∃ x, v = .fin x) ∨ v = .nan := by
  cases v with
  | fin x => exact Or.inl ⟨x, rfl⟩
  | inf b => exact h.elim
  | nan => exact Or.inr rfl

theorem FV.finOrNan_sub_fin {v : FV} (a : ℝ) (h : v.finOrNan) :
    (v.sub (.fin a)).finOrNan := by
  cases v with
  | fin x => exact trivial
  | inf b => exact h.elim
  | nan => exact trivial

theorem FV.finOrNan_add_fin {v : FV} (a : ℝ) (h : v.finOrNan) :
    (v.add (.fin a)).finOrNan := by
  cases v with
  | fin x => exact trivial
  | inf b => exact h.elim
  | nan => exact trivial

/-- The Gauss error function is positive on positive arguments. -/
theorem sas_erf_pos {x : ℝ} (hx : 0 < x) : 0 < sas_erf x := by
  rw [sas_erf]
  apply mul_pos
  · exact div_pos two_pos (Real.sqrt_pos.mpr Real.pi_pos)
  · exact intervalIntegral.intervalIntegral_pos_of_pos
      ((Continuous.intervalIntegrable (by continuity) 0 x))
      (fun t => Real.exp_pos _) hx

/-- At q = 0 and r = 0 the boundary term is 0/0 times the volume 0: nan. -/
theorem f_linear_q_zero_r_zero (c s : ℝ) :
    f_linear 0 0 (.fin c) (.fin s) = .nan := by
  norm_num [f_linear, FV.div, FV.mul, FV.add, sph_j1c, Real.sin_zero, Real.cos_zero]

/-- At q = 0 and r > 0 the slope term divides 6r by +0, giving +inf; a zero
slope then multiplies it to nan, a nonzero slope gives a signed infinity. -/
theorem f_linear_q_zero_eval (r c s : ℝ) (hr : 0 < r) :
    f_linear 0 r (.fin c) (.fin s)
      = if s = 0 then FV.nan else FV.inf (decide (0 < s)) := by
  have h1 : 3 * r * (2 * (0 * r) * Real.sin (0 * r)
      - (0 * r * (0 * r) - 2) * Real.cos (0 * r)) = 6 * r := by
    rw [zero_mul, Real.sin_zero, Real.cos_zero]; ring
  have h2 : 0 * r * (0 * r) * (0 * r * (0 * r)) = (0:ℝ) := by ring
  have h3 : sph_j1c (0 * r) = 1 := by rw [zero_mul, sph_j1c, if_pos rfl]
  rw [f_linear, h1, h2, h3]
  have h6 : (6:ℝ) * r ≠ 0 := by positivity
  have h7 : decide ((0:ℝ) < 6 * r) = true := decide_eq_true (by positivity)
  have hvol : 0 < M_4PI_3 * cube r := by
    rw [M_4PI_3, cube]; positivity
  simp only [FV.div, if_pos rfl, if_neg h6, h7]
  by_cases hs : s = 0
  · subst hs
    rw [if_pos rfl]
    simp [FV.mul, FV.add]
  · rw [if_neg hs]
    simp [FV.mul, FV.add, hs, hvol.ne', decide_eq_true hvol]

/-- For a clamped sharpness and z in (0, 1], blend is a finite value or nan. -/
theorem blend_fin_or_nan (sh : ℤ) (nus z : ℝ) (hnus : 1e-14 ≤ nus)
    (hz0 : 0 < z) (hz1 : z ≤ 1) :
    (∃ w, blend sh nus z = .fin w) ∨ blend sh nus z = .nan := by
  have hpos : 0 < nus := lt_of_lt_of_le (by norm_num) hnus
  have hne : nus ≠ 0 := ne_of_gt hpos
  by_cases h0 : sh = 0
  · subst h0
    left
    have hdenom : 2 * sas_erf (nus * M_SQRT1_2) ≠ 0 := by
      have hx : 0 < nus * M_SQRT1_2 := by
        apply mul_pos hpos
        rw [M_SQRT1_2]
        positivity
      exact ne_of_gt (mul_pos two_pos (sas_erf_pos hx))
    rw [blend, if_pos rfl, FV.div_fin _ hdenom]
    exact ⟨_, rfl⟩
  by_cases h1 : sh = 1
  · subst h1
    left
    have hb : blend 1 nus z = powFV z nus := by rw [blend]; norm_num
    rw [hb, powFV, if_pos hz0]
    exact ⟨_, rfl⟩
  by_cases h2 : sh = 2
  · subst h2
    left
    have hb : blend 2 nus z = FV.sub (.fin 1) (powFV (1 - z) nus) := by
      rw [blend]; norm_num
    rcases lt_or_eq_of_le (sub_nonneg.mpr hz1) with hlt | heq
    · rw [hb, powFV, if_pos hlt, FV.sub_fin]
      exact ⟨_, rfl⟩
    · rw [hb, ← heq, powFV]
      rw [if_neg (lt_irrefl 0), if_pos rfl, if_pos hpos, FV.sub_fin]
      exact ⟨_, rfl⟩
  by_cases h3 : sh = 3
  · subst h3
    left
    have hexp : expm1 (-nus) ≠ 0 := by
      rw [expm1, sub_ne_zero]
      intro hc
      exact (neg_ne_zero.mpr hne) ((Real.exp_eq_one_iff _).mp hc)
    have hb : blend 3 nus z = FV.div (.fin (expm1 (-nus * z))) (.fin (expm1 (-nus))) := by
      rw [blend]; norm_num
    rw [hb, FV.div_fin _ hexp]
    exact ⟨_, rfl⟩
  by_cases h4 : sh = 4
  · subst h4
    left
    have hexp : expm1 nus ≠ 0 := by
      rw [expm1, sub_ne_zero]
      intro hc
      exact hne ((Real.exp_eq_one_iff _).mp hc)
    have hb : blend 4 nus z = FV.div (.fin (expm1 (nus * z))) (.fin (expm1 nus)) := by
      rw [blend]; norm_num
    rw [hb, FV.div_fin _ hexp]
    exact ⟨_, rfl⟩
  · right
    exact blend_invalid _ _ _ h0 h1 h2 h3 h4

theorem foldl_preserves_mem {α β : Type _} (P : β → Prop) (f : β → α → β) :
    ∀ (l : List α) (b : β), P b → (∀ st, ∀ a ∈ l, P st → P (f st a)) →
      P (l.foldl f b) := by
  intro l
  induction l with
  | nil => intro b hb _; exact hb
  | cons x xs ih =>
      intro b hb hstep
      exact ih _ (hstep b x (List.mem_cons_self x xs) hb)
        (fun st a ha hst => hstep st a (List.mem_cons_of_mem x ha) hst)

theorem interfaceStep_q_zero (sld_l delta dr : ℝ) (sh : ℤ) (nus : ℝ) (N : ℕ)
    (hnus : 1e-14 ≤ nus) (hdr : 0 < dr) (k : ℕ) (hk : k < N)
    (st : FV × ℝ × FV) (hf : st.1.finOrNan) (hr : 0 ≤ st.2.1)
    (hsi : st.2.2.finOrNan) :
    (interfaceStep 0 sld_l delta dr sh nus N st k).1.finOrNan ∧
    0 ≤ (interfaceStep 0 sld_l delta dr sh nus N st k).2.1 ∧
    (interfaceStep 0 sld_l delta dr sh nus N st k).2.2.finOrNan := by
  obtain ⟨f, r, si⟩ := st
  dsimp only at hf hr hsi
  have hN : 0 < N := lt_of_le_of_lt (Nat.zero_le k) hk
  have hz0 : 0 < ((k + 1 : ℕ) : ℝ) / (N : ℝ) := by
    apply div_pos
    · exact_mod_cast Nat.succ_pos k
    · exact_mod_cast hN
  have hz1 : ((k + 1 : ℕ) : ℝ) / (N : ℝ) ≤ 1 := by
    rw [div_le_one (by exact_mod_cast hN)]
    exact_mod_cast hk
  have hrdr : (0:ℝ) ≤ r + dr := add_nonneg hr hdr.le
  rw [interfaceStep]
  dsimp only
  rcases blend_fin_or_nan sh nus _ hnus hz0 hz1 with ⟨w, hw⟩ | hw
  · rw [hw]
    rcases FV.finOrNan_cases hsi with ⟨s0, hs0⟩ | hs0
    · subst hs0
      rw [FV.mul_fin, FV.add_fin, FV.sub_fin, FV.div_fin _ hdr.ne', FV.mul_fin,
        FV.sub_fin]
      rcases eq_or_lt_of_le hr with hr0 | hr0
      · rw [← hr0, f_linear_q_zero_r_zero]
        exact ⟨by simp [FV.finOrNan], by rw [zero_add]; exact hdr.le, trivial⟩
      · rw [f_linear_q_zero_eval _ _ _ hr0, f_linear_q_zero_eval _ _ _
          (lt_of_lt_of_le hr0 (le_add_of_nonneg_right hdr.le))]
        by_cases hsl : (w * delta + sld_l - s0) / dr = 0
        · rw [if_pos hsl]
          exact ⟨by simp [FV.sub_nan, FV.nan_add, FV.finOrNan], hrdr, trivial⟩
        · rw [if_neg hsl]
          rcases FV.finOrNan_cases hf with ⟨F, hF⟩ | hF <;> subst hF
          · refine ⟨?_, hrdr, trivial⟩
            have h1 : FV.sub (.fin F) (.inf (decide (0 < (w * delta + sld_l - s0) / dr)))
                = FV.inf (!decide (0 < (w * delta + sld_l - s0) / dr)) := rfl
            rw [h1]
            have h2 : FV.add (.inf (!decide (0 < (w * delta + sld_l - s0) / dr)))
                (.inf (decide (0 < (w * delta + sld_l - s0) / dr))) = FV.nan := by
              rw [FV.add]
              simp
            rw [h2]
            exact trivial
          · exact ⟨by simp [FV.nan_sub, FV.nan_add, FV.finOrNan], hrdr, trivial⟩
    · subst hs0
      simp only [FV.mul_fin, FV.add_fin, FV.sub_nan, FV.nan_sub, FV.nan_div,
        FV.nan_mul, f_linear_nan_slope, FV.nan_add, FV.add_nan]
      exact ⟨trivial, hrdr, trivial⟩
  · rw [hw]
    simp only [FV.nan_mul, FV.nan_add, FV.nan_sub, FV.nan_div, FV.sub_nan,
      f_linear_nan_slope, FV.add_nan]
    exact ⟨trivial, hrdr, trivial⟩

theorem shellStep_q_zero (sld_solvent : ℝ) (n_shells : ℕ)
    (sld thickness interface shape nu : ℕ → ℝ) (N : ℕ)
    (shell : ℕ) (hth : 0 ≤ thickness shell) (hitf : 0 ≤ interface shell)
    (st : FV × ℝ) (hf : st.1.finOrNan) (hr : 0 ≤ st.2) :
    (shellStep 0 sld_solvent n_shells sld thickness interface shape nu N st shell).1.finOrNan ∧
    0 ≤ (shellStep 0 sld_solvent n_shells sld thickness interface shape nu N st shell).2 := by
  obtain ⟨f, r⟩ := st
  dsimp only at hf hr
  have hr0 : (0:ℝ) ≤ r + thickness shell := add_nonneg hr hth
  have hf1 : (FV.add (FV.sub f
      (.fin (M_4PI_3 * cube r * sld shell * sph_j1c (0 * r))))
      (.fin (M_4PI_3 * cube (r + thickness shell) * sld shell *
        sph_j1c (0 * (r + thickness shell))))).finOrNan :=
    FV.finOrNan_add_fin _ (FV.finOrNan_sub_fin _ hf)
  rw [shellStep]
  dsimp only
  by_cases hdr : interface shell / (N : ℝ) = 0
  · rw [if_pos hdr]
    exact ⟨hf1, hr0⟩
  · rw [if_neg hdr]
    dsimp only
    have hdrpos : 0 < interface shell / (N : ℝ) :=
      lt_of_le_of_ne (div_nonneg hitf (Nat.cast_nonneg N)) (Ne.symm hdr)
    have hfold := foldl_preserves_mem
      (fun t : FV × ℝ × FV => t.1.finOrNan ∧ 0 ≤ t.2.1 ∧ t.2.2.finOrNan)
      (interfaceStep 0 (sld shell)
        ((if shell = n_shells - 1 then sld_solvent else sld (shell + 1)) - sld shell)
        (interface shell / (N : ℝ)) (truncToInt (shape shell))
        (max |nu shell| 1e-14) N)
      (List.range N) (_, r + thickness shell, .fin (sld shell))
      ⟨hf1, hr0, trivial⟩
      (fun st a ha hst => interfaceStep_q_zero _ _ _ _ _ _ (le_max_right _ _)
        hdrpos a (List.mem_range.mp ha) st hst.1 hst.2.1 hst.2.2)
    exact ⟨hfold.1, hfold.2.1⟩

/-- C4: at q = 0 (with the spec data-model invariants: nonnegative
thicknesses and interface widths, at least one sub-step) the kernel is
total and the intensity is a finite value or nan, never an infinity: the
division by (qr)^4 in f_linear follows the IEEE rules and any infinities it
produces cancel into nan before the call returns. -/
theorem Iq_q_zero_fin_or_nan (n_shells : ℕ) (sld_solvent : ℝ)
    (sld thickness interface shape nu : ℕ → ℝ) (N : ℕ) (hN : 1 ≤ N)
    (hth : ∀ i, i < n_shells → 0 ≤ thickness i)
    (hitf : ∀ i, i < n_shells → 0 ≤ interface i) :
    (∃ x, Iq 0 n_shells sld_solvent sld thickness interface shape nu N = .fin x) ∨
    Iq 0 n_shells sld_solvent sld thickness interface shape nu N = .nan := by
  have hfold := foldl_preserves_mem (fun t : FV × ℝ => t.1.finOrNan ∧ 0 ≤ t.2)
    (shellStep 0 sld_solvent n_shells sld thickness interface shape nu N)
    (List.range n_shells) (.fin 0, 0) ⟨trivial, le_refl 0⟩
    (fun st a ha hst => shellStep_q_zero sld_solvent n_shells sld thickness
      interface shape nu N a (hth a (List.mem_range.mp ha))
      (hitf a (List.mem_range.mp ha)) st hst.1 hst.2)
  have hIqf : (∃ x, Iq_f 0 n_shells sld_solvent sld thickness interface shape nu N
      = .fin x) ∨
      Iq_f 0 n_shells sld_solvent sld thickness interface shape nu N = .nan := by
    rw [Iq_f]
    exact FV.finOrNan_cases (FV.finOrNan_sub_fin _ hfold.1)
  rcases hIqf with ⟨x, hx⟩ | hx
  · left
    exact ⟨x * x * 1e-4, by rw [Iq, hx]; rfl⟩
  · right
    rw [Iq, hx]
    rfl

/-- C4 witness: one shell of thickness 2 and interface width 1 at q = 0. -/
theorem Iq_q_zero_fin_or_nan_witness :
    1 ≤ 3 ∧
    ((∃ x, Iq 0 1 5 (fun _ => 1) (fun _ => 2) (fun _ => 1) (fun _ => 0)
        (fun _ => 1) 3 = .fin x) ∨
      Iq 0 1 5 (fun _ => 1) (fun _ => 2) (fun _ => 1) (fun _ => 0)
        (fun _ => 1) 3 = .nan) :=
  ⟨by norm_num,
    Iq_q_zero_fin_or_nan 1 5 (fun _ => 1) (fun _ => 2) (fun _ => 1) (fun _ => 0)
      (fun _ => 1) 3 (by norm_num) (fun i _ => by norm_num) (fun i _ => by norm_num)⟩

/-! Refinement of the kernel against the spec-side real-arithmetic
telescoped sum, under the nondegeneracy hypotheses of the claim. -/

theorem blend_eq_spec (sh : ℤ) (nus z : ℝ)
    (hsh : sh ∈ ({0, 1, 2, 3, 4} : Finset ℤ)) (hnus : 1e-14 ≤ nus)
    (hz0 : 0 < z) (hz1 : z ≤ 1) :
    blend sh nus z = .fin (blendSpec sh nus z) := by
  have hpos : 0 < nus := lt_of_lt_of_le (by norm_num) hnus
  have hne : nus ≠ 0 := ne_of_gt hpos
  fin_cases hsh
  · have e1 : nus * M_SQRT1_2 * (2 * z - 1) = nus * (2 * z - 1) / Real.sqrt 2 := by
      rw [M_SQRT1_2]; ring
    have e2 : nus * M_SQRT1_2 = nus / Real.sqrt 2 := by
      rw [M_SQRT1_2]; ring
    have hdenom : 2 * sas_erf (nus / Real.sqrt 2) ≠ 0 := by
      have hx : 0 < nus / Real.sqrt 2 := by positivity
      exact ne_of_gt (mul_pos two_pos (sas_erf_pos hx))
    rw [blend, if_pos rfl, e1, e2, FV.div_fin _ hdenom, FV.add_fin, blendSpec,
      if_pos rfl]
  · have hb : blend 1 nus z = powFV z nus := by rw [blend]; norm_num
    have hs : blendSpec 1 nus z = Real.rpow z nus := by rw [blendSpec]; norm_num
    rw [hb, hs, powFV, if_pos hz0]
  · have hb : blend 2 nus z = FV.sub (.fin 1) (powFV (1 - z) nus) := by
      rw [blend]; norm_num
    have hs : blendSpec 2 nus z = 1 - Real.rpow (1 - z) nus := by
      rw [blendSpec]; norm_num
    rcases lt_or_eq_of_le (sub_nonneg.mpr hz1) with hlt | heq
    · rw [hb, hs, powFV, if_pos hlt, FV.sub_fin]
    · have hz : Real.rpow 0 nus = 0 := Real.zero_rpow hne
      rw [hb, hs, ← heq, powFV, if_neg (lt_irrefl 0), if_pos rfl, if_pos hpos,
        FV.sub_fin, hz]
  · have hexp : expm1 (-nus) ≠ 0 := by
      rw [expm1, sub_ne_zero]
      intro hc
      exact (neg_ne_zero.mpr hne) ((Real.exp_eq_one_iff _).mp hc)
    have hb : blend 3 nus z = FV.div (.fin (expm1 (-nus * z))) (.fin (expm1 (-nus))) := by
      rw [blend]; norm_num
    have hs : blendSpec 3 nus z = expm1 (-nus * z) / expm1 (-nus) := by
      rw [blendSpec]; norm_num
    rw [hb, hs, FV.div_fin _ hexp]
  · have hexp : expm1 nus ≠ 0 := by
      rw [expm1, sub_ne_zero]
      intro hc
      exact hne ((Real.exp_eq_one_iff _).mp hc)
    have hb : blend 4 nus z = FV.div (.fin (expm1 (nus * z))) (.fin (expm1 nus)) := by
      rw [blend]; norm_num
    have hs : blendSpec 4 nus z = expm1 (nus * z) / expm1 nus := by
      rw [blendSpec]; norm_num
    rw [hb, hs, FV.div_fin _ hexp]

theorem f_linear_fin (q r c s : ℝ) (h : q * r ≠ 0) :
    f_linear q r (.fin c) (.fin s) = .fin (segmentTransformSpec q r c s) := by
  have h4 : q * r * (q * r) * (q * r * (q * r)) ≠ 0 :=
    mul_ne_zero (mul_ne_zero h h) (mul_ne_zero h h)
  rw [f_linear, FV.div_fin _ h4, FV.mul_fin, FV.mul_fin, FV.add_fin, FV.mul_fin,
    segmentTransformSpec, M_4PI_3, cube]
  congr 1
  ring

theorem interfaceStep_eq_spec (q sld_l delta dr : ℝ) (sh : ℤ) (nus : ℝ) (N : ℕ)
    (hq : q ≠ 0) (hsh : sh ∈ ({0, 1, 2, 3, 4} : Finset ℤ)) (hnus : 1e-14 ≤ nus)
    (hdr : 0 < dr) (F S r : ℝ) (hr : 0 < r) (k : ℕ) (hk : k < N) :
    interfaceStep q sld_l delta dr sh nus N (.fin F, r, .fin S) k
      = (.fin (interfaceStepSpec q sld_l delta dr sh nus N (F, r, S) k).1,
         (interfaceStepSpec q sld_l delta dr sh nus N (F, r, S) k).2.1,
         .fin (interfaceStepSpec q sld_l delta dr sh nus N (F, r, S) k).2.2) := by
  have hN : 0 < N := lt_of_le_of_lt (Nat.zero_le k) hk
  have hz0 : 0 < ((k + 1 : ℕ) : ℝ) / (N : ℝ) := by
    apply div_pos
    · exact_mod_cast Nat.succ_pos k
    · exact_mod_cast hN
  have hz1 : ((k + 1 : ℕ) : ℝ) / (N : ℝ) ≤ 1 := by
    rw [div_le_one (by exact_mod_cast hN)]
    exact_mod_cast hk
  have hqr : q * r ≠ 0 := mul_ne_zero hq (ne_of_gt hr)
  have hqr2 : q * (r + dr) ≠ 0 := mul_ne_zero hq (ne_of_gt (by linarith))
  rw [interfaceStep, interfaceStepSpec]
  dsimp only
  rw [blend_eq_spec sh nus _ hsh hnus hz0 hz1, FV.mul_fin, FV.add_fin, FV.sub_fin,
    FV.div_fin _ hdr.ne', FV.mul_fin, FV.sub_fin, f_linear_fin _ _ _ _ hqr,
    f_linear_fin _ _ _ _ hqr2, FV.sub_fin, FV.add_fin]

theorem interfaceFold_eq_spec (q sld_l delta dr : ℝ) (sh : ℤ) (nus : ℝ) (N : ℕ)
    (hq : q ≠ 0) (hsh : sh ∈ ({0, 1, 2, 3, 4} : Finset ℤ)) (hnus : 1e-14 ≤ nus)
    (hdr : 0 < dr) (base : ℝ) (hbase : 0 < base) (F S : ℝ) :
    ∀ m, m ≤ N →
      (List.range m).foldl (interfaceStep q sld_l delta dr sh nus N)
          (.fin F, base, .fin S)
        = (.fin ((List.range m).foldl (interfaceStepSpec q sld_l delta dr sh nus N)
              (F, base, S)).1,
           ((List.range m).foldl (interfaceStepSpec q sld_l delta dr sh nus N)
              (F, base, S)).2.1,
           .fin ((List.range m).foldl (interfaceStepSpec q sld_l delta dr sh nus N)
              (F, base, S)).2.2)
      ∧ ((List.range m).foldl (interfaceStepSpec q sld_l delta dr sh nus N)
          (F, base, S)).2.1 = base + m * dr := by
  intro m
  induction m with
  | zero => intro _; exact ⟨rfl, by simp⟩
  | succ m ih =>
      intro hm
      obtain ⟨ihE, ihR⟩ := ih (Nat.le_of_succ_le hm)
      have hrpos : 0 < ((List.range m).foldl
          (interfaceStepSpec q sld_l delta dr sh nus N) (F, base, S)).2.1 := by
        rw [ihR]
        have : (0:ℝ) ≤ (m : ℝ) * dr := mul_nonneg (Nat.cast_nonneg m) hdr.le
        linarith
      rw [List.range_succ, List.foldl_append, List.foldl_cons, List.foldl_nil,
        List.foldl_append, List.foldl_cons, List.foldl_nil, ihE]
      constructor
      · rw [show ((List.range m).foldl (interfaceStepSpec q sld_l delta dr sh nus N)
            (F, base, S))
            = (((List.range m).foldl (interfaceStepSpec q sld_l delta dr sh nus N)
                (F, base, S)).1,
               ((List.range m).foldl (interfaceStepSpec q sld_l delta dr sh nus N)
                (F, base, S)).2.1,
               ((List.range m).foldl (interfaceStepSpec q sld_l delta dr sh nus N)
                (F, base, S)).2.2) from rfl]
        exact interfaceStep_eq_spec q sld_l delta dr sh nus N hq hsh hnus hdr _ _ _
          hrpos m (Nat.lt_of_succ_le hm)
      · rw [interfaceStepSpec]
        dsimp only
        rw [ihR]
        push_cast
        ring

theorem shellStep_eq_spec (q ssol : ℝ) (n_shells : ℕ)
    (sld thickness interface shape nu : ℕ → ℝ) (N : ℕ)
    (hq : q ≠ 0) (hN : 1 ≤ N) (s : ℕ)
    (hth : 0 ≤ thickness s) (hitf2 : 0 ≤ interface s)
    (hshape : truncToInt (shape s) ∈ ({0, 1, 2, 3, 4} : Finset ℤ))
    (F R : ℝ) (hpos : interface s ≠ 0 → 0 < R + thickness s) :
    shellStep q ssol n_shells sld thickness interface shape nu N (.fin F, R) s
      = (.fin (shellStepSpec q ssol n_shells sld thickness interface shape nu N
           (F, R) s).1,
         (shellStepSpec q ssol n_shells sld thickness interface shape nu N
           (F, R) s).2) ∧
    (shellStepSpec q ssol n_shells sld thickness interface shape nu N (F, R) s).2
      = R + thickness s + interface s := by
  have hNr : (N : ℝ) ≠ 0 := Nat.cast_ne_zero.mpr (Nat.one_le_iff_ne_zero.mp hN)
  rw [shellStep, shellStepSpec]
  dsimp only
  by_cases hitf0 : interface s = 0
  · rw [if_pos (by rw [hitf0, zero_div]), if_pos hitf0, FV.sub_fin, FV.add_fin]
    have eF0 : F - M_4PI_3 * cube R * sld s * sph_j1c (q * R)
        + M_4PI_3 * cube (R + thickness s) * sld s * sph_j1c (q * (R + thickness s))
        = F - uniformTermSpec q R (sld s)
          + uniformTermSpec q (R + thickness s) (sld s) := by
      rw [uniformTermSpec, uniformTermSpec, M_4PI_3, cube, cube]; ring
    rw [eF0, hitf0, add_zero]
    exact ⟨rfl, rfl⟩
  · have hdr0 : interface s / (N : ℝ) ≠ 0 := by
      intro hc
      rcases div_eq_zero_iff.mp hc with hc' | hc'
      · exact hitf0 hc'
      · exact hNr hc'
    have hdrpos : 0 < interface s / (N : ℝ) :=
      lt_of_le_of_ne (div_nonneg hitf2 (Nat.cast_nonneg N)) (Ne.symm hdr0)
    have hbase : 0 < R + thickness s := hpos hitf0
    rw [if_neg hdr0, if_neg hitf0, FV.sub_fin, FV.add_fin]
    dsimp only
    have eF : F - M_4PI_3 * cube R * sld s * sph_j1c (q * R)
        + M_4PI_3 * cube (R + thickness s) * sld s * sph_j1c (q * (R + thickness s))
        = F - uniformTermSpec q R (sld s)
          + uniformTermSpec q (R + thickness s) (sld s) := by
      rw [uniformTermSpec, uniformTermSpec, M_4PI_3, cube, cube]; ring
    rw [eF]
    obtain ⟨hE, hR⟩ := interfaceFold_eq_spec q (sld s)
      ((if s = n_shells - 1 then ssol else sld (s + 1)) - sld s)
      (interface s / (N : ℝ)) (truncToInt (shape s)) (max |nu s| 1e-14) N
      hq hshape (le_max_right _ _) hdrpos (R + thickness s) hbase
      (F - uniformTermSpec q R (sld s) + uniformTermSpec q (R + thickness s) (sld s))
      (sld s) N (le_refl N)
    rw [hE]
    refine ⟨rfl, ?_⟩
    rw [hR, mul_div_cancel₀ _ hNr]

theorem shellFold_eq_spec (q : ℝ) (n_shells : ℕ) (ssol : ℝ)
    (sld thickness interface shape nu : ℕ → ℝ) (N : ℕ)
    (hq : q ≠ 0) (hN : 1 ≤ N)
    (hth : ∀ i, i < n_shells → 0 ≤ thickness i)
    (hitf : ∀ i, i < n_shells → 0 ≤ interface i)
    (hshape : ∀ i, i < n_shells → truncToInt (shape i) ∈ ({0, 1, 2, 3, 4} : Finset ℤ))
    (hpos : ∀ i, i < n_shells → interface i ≠ 0 →
      0 < (∑ j in Finset.range i, (thickness j + interface j)) + thickness i) :
    ∀ s, s ≤ n_shells →
      (List.range s).foldl
          (shellStep q ssol n_shells sld thickness interface shape nu N) (.fin 0, 0)
        = (.fin ((List.range s).foldl
              (shellStepSpec q ssol n_shells sld thickness interface shape nu N)
              (0, 0)).1,
           ((List.range s).foldl
              (shellStepSpec q ssol n_shells sld thickness interface shape nu N)
              (0, 0)).2)
      ∧ ((List.range s).foldl
            (shellStepSpec q ssol n_shells sld thickness interface shape nu N)
            (0, 0)).2
          = ∑ j in Finset.range s, (thickness j + interface j) := by
  intro s
  induction s with
  | zero => intro _; exact ⟨rfl, by simp⟩
  | succ s ih =>
      intro hm
      have hs : s < n_shells := Nat.lt_of_succ_le hm
      obtain ⟨ihE, ihR⟩ := ih (Nat.le_of_succ_le hm)
      rw [List.range_succ, List.foldl_append, List.foldl_cons, List.foldl_nil,
        List.foldl_append, List.foldl_cons, List.foldl_nil, ihE]
      obtain ⟨hstep, hrad⟩ := shellStep_eq_spec q ssol n_shells sld thickness
        interface shape nu N hq hN s (hth s hs) (hitf s hs) (hshape s hs)
        ((List.range s).foldl
          (shellStepSpec q ssol n_shells sld thickness interface shape nu N)
          (0, 0)).1
        ((List.range s).foldl
          (shellStepSpec q ssol n_shells sld thickness interface shape nu N)
          (0, 0)).2
        (fun h => by rw [ihR]; exact hpos s hs h)
      constructor
      · exact hstep
      · exact hrad.trans (by rw [ihR, Finset.sum_range_succ]; ring)

/-- C1: under the nondegeneracy hypotheses (nonzero q, at least one
sub-step, nonnegative thicknesses and interface widths, recognized blend
shapes, and a positive radius at the start of every nonempty interface so
that no division degenerates), the amplitude accumulated by Iq equals the
spec-side real-arithmetic telescoped sum, and the returned intensity is
that amplitude squared times 1e-4. -/
theorem Iq_eq_spec_telescoped_sum (q : ℝ) (n_shells : ℕ) (sld_solvent : ℝ)
    (sld thickness interface shape nu : ℕ → ℝ) (n_steps : ℕ)
    (hq : q ≠ 0) (hN : 1 ≤ n_steps)
    (hth : ∀ i, i < n_shells → 0 ≤ thickness i)
    (hitf : ∀ i, i < n_shells → 0 ≤ interface i)
    (hshape : ∀ i, i < n_shells → truncToInt (shape i) ∈ ({0, 1, 2, 3, 4} : Finset ℤ))
    (hpos : ∀ i, i < n_shells → interface i ≠ 0 →
      0 < (∑ j in Finset.range i, (thickness j + interface j)) + thickness i) :
    Iq_f q n_shells sld_solvent sld thickness interface shape nu n_steps
      = .fin (ampSpec q n_shells sld_solvent sld thickness interface shape nu n_steps) ∧
    Iq q n_shells sld_solvent sld thickness interface shape nu n_steps
      = .fin ((ampSpec q n_shells sld_solvent sld thickness interface shape nu
          n_steps) ^ 2 * 1e-4) := by
  obtain ⟨hE, hR⟩ := shellFold_eq_spec q n_shells sld_solvent sld thickness
    interface shape nu n_steps hq hN hth hitf hshape hpos n_shells (le_refl _)
  have hf : Iq_f q n_shells sld_solvent sld thickness interface shape nu n_steps
      = .fin (ampSpec q n_shells sld_solvent sld thickness interface shape nu
          n_steps) := by
    rw [Iq_f, ampSpec, hE, FV.sub_fin]
    congr 1
    rw [uniformTermSpec, M_4PI_3, cube]
    ring
  refine ⟨hf, ?_⟩
  rw [Iq, hf, FV.mul_fin, FV.mul_fin]
  congr 1
  ring

/-- C1 witness: one shell, erf blend shape, thickness 3, interface width 1,
two sub-steps, q = 1. -/
theorem Iq_eq_spec_telescoped_sum_witness :
    (1:ℝ) ≠ 0 ∧ 1 ≤ 2 ∧
    Iq_f 1 1 0 (fun _ => 2) (fun _ => 3) (fun _ => 1) (fun _ => 0) (fun _ => 1) 2
      = .fin (ampSpec 1 1 0 (fun _ => 2) (fun _ => 3) (fun _ => 1) (fun _ => 0)
          (fun _ => 1) 2) ∧
    Iq 1 1 0 (fun _ => 2) (fun _ => 3) (fun _ => 1) (fun _ => 0) (fun _ => 1) 2
      = .fin ((ampSpec 1 1 0 (fun _ => 2) (fun _ => 3) (fun _ => 1) (fun _ => 0)
          (fun _ => 1) 2) ^ 2 * 1e-4) := by
  have h := Iq_eq_spec_telescoped_sum 1 1 0 (fun _ => 2) (fun _ => 3) (fun _ => 1)
    (fun _ => 0) (fun _ => 1) 2 (by norm_num) (by norm_num)
    (fun i _ => by norm_num) (fun i _ => by norm_num)
    (fun i hi => by
      have ht : truncToInt ((fun _ : ℕ => (0:ℝ)) i) = 0 := by norm_num [truncToInt]
      rw [ht]
      decide)
    (fun i hi _ => by
      interval_cases i
      norm_num)
  exact ⟨by norm_num, by norm_num, h.1, h.2⟩

/-- Iteration-counting instrumentation of the shell-loop body: the state
component evolves exactly as in shellStep, the first counter increments
once per shell-loop body, the second counter increments once per executed
interface sub-step. -/
noncomputable def shellStepInstr (q sld_solvent : ℝ) (n_shells : ℕ)
    (sld thickness interface shape nu : ℕ → ℝ) (n_steps : ℕ)
    (st : (FV × ℝ) × ℕ × ℕ) (shell : ℕ) : (FV × ℝ) × ℕ × ℕ :=
  (shellStep q sld_solvent n_shells sld thickness interface shape nu n_steps
    st.1 shell,
   st.2.1 + 1,
   if interface shell / (n_steps : ℝ) = 0 then st.2.2
   else (List.range n_steps).foldl (fun c _ => c + 1) st.2.2)

/-- Instrumented Iq: the intensity together with the number of shell-loop
iterations and the total number of interface sub-step iterations. -/
noncomputable def IqInstr (q : ℝ) (n_shells : ℕ) (sld_solvent : ℝ)
    (sld thickness interface shape nu : ℕ → ℝ) (n_steps : ℕ) : FV × ℕ × ℕ :=
  let t := (List.range n_shells).foldl
    (shellStepInstr q sld_solvent n_shells sld thickness interface shape nu n_steps)
    ((.fin 0, 0), 0, 0)
  let f := FV.sub t.1.1
    (.fin (M_4PI_3 * cube t.1.2 * sld_solvent * sph_j1c (q * t.1.2)))
  (FV.mul (FV.mul f f) (.fin 1e-4), t.2)

theorem foldl_count {α : Type _} : ∀ (l : List α) (c : ℕ),
    l.foldl (fun c _ => c + 1) c = c + l.length := by
  intro l
  induction l with
  | nil => intro c; rfl
  | cons x xs ih =>
      intro c
      rw [List.foldl_cons, ih, List.length_cons]
      omega

theorem shellInstr_fold (q sld_solvent : ℝ) (n_shells : ℕ)
    (sld thickness interface shape nu : ℕ → ℝ) (n_steps : ℕ) :
    ∀ (l : List ℕ) (st : FV × ℝ) (o i : ℕ),
      l.foldl (shellStepInstr q sld_solvent n_shells sld thickness interface
        shape nu n_steps) (st, o, i)
        = (l.foldl (shellStep q sld_solvent n_shells sld thickness interface
            shape nu n_steps) st,
           o + l.length,
           i + n_steps * (l.countP
             (fun s => !decide (interface s / (n_steps : ℝ) = 0)))) := by
  intro l
  induction l with
  | nil => intro st o i; simp
  | cons x xs ih =>
      intro st o i
      rw [List.foldl_cons, List.foldl_cons, shellStepInstr]
      by_cases hdr : interface x / (n_steps : ℝ) = 0
      · rw [if_pos hdr, ih]
        have hd : decide (interface x / (n_steps : ℝ) = 0) = true := decide_eq_true hdr
        simp only [List.countP_cons, List.length_cons, hd, Bool.not_true,
          Bool.false_eq_true, if_false, Prod.mk.injEq, add_zero]
        exact ⟨trivial, by omega, trivial⟩
      · rw [if_neg hdr, foldl_count, List.length_range, ih]
        have hd : decide (interface x / (n_steps : ℝ) = 0) = false := decide_eq_false hdr
        simp only [List.countP_cons, List.length_cons, hd, Bool.not_false,
          eq_self_iff_true, if_true, Prod.mk.injEq]
        exact ⟨trivial, by omega, by ring⟩

/-- C8: Iq terminates with an input-determined iteration count: the
instrumented kernel computes the same intensity value, runs the shell loop
exactly n_shells times, and runs n_steps interface sub-steps for each shell
whose interface loop is entered (those with nonzero dr). -/
theorem Iq_iteration_count (q : ℝ) (n_shells : ℕ) (sld_solvent : ℝ)
    (sld thickness interface shape nu : ℕ → ℝ) (n_steps : ℕ) (hN : 1 ≤ n_steps) :
    IqInstr q n_shells sld_solvent sld thickness interface shape nu n_steps
      = (Iq q n_shells sld_solvent sld thickness interface shape nu n_steps,
         n_shells,
         n_steps * ((List.range n_shells).countP
           (fun s => !decide (interface s / (n_steps : ℝ) = 0)))) := by
  rw [IqInstr, shellInstr_fold, Iq, Iq_f, List.length_range]
  simp

/-- C8 witness at a concrete input with one graded and one sharp shell. -/
theorem Iq_iteration_count_witness :
    1 ≤ 4 ∧
    IqInstr 1 2 0 (fun _ => 1) (fun _ => 1) (fun s => if s = 0 then 1 else 0)
        (fun _ => 0) (fun _ => 1) 4
      = (Iq 1 2 0 (fun _ => 1) (fun _ => 1) (fun s => if s = 0 then 1 else 0)
          (fun _ => 0) (fun _ => 1) 4,
         2,
         4 * ((List.range 2).countP
           (fun s => !decide ((if s = 0 then (1:ℝ) else 0) / (4 : ℝ) = 0)))) :=
  ⟨by norm_num,
    Iq_iteration_count 1 2 0 (fun _ => 1) (fun _ => 1)
      (fun s => if s = 0 then 1 else 0) (fun _ => 0) (fun _ => 1) 4 (by norm_num)⟩
